import Mathlib

/-!
Verification development for a small reliability-engineering statistics
repository: a binomial-distribution model with early-exit truncation, an
operating-characteristic (OC) curve module with nearest-two-point linear
interpolation for quality limits, and closed-form Weibull distribution
functions, together with the text-input update handlers that validate user
input at the presentation boundary.

The Python sources are embedded shallowly:
* exact rational arithmetic (`ℚ`) stands in for floating point wherever the
  code is algebraic, keeping every model-level definition executable;
* the Weibull functions use real transcendental arithmetic (`ℝ`, `Real.exp`,
  real exponents), mirroring `pow(t/c, m)` and `pow(math.e, p)`;
* Python operations that can raise (`float` division by zero, list indexing)
  are modelled with `Except`/`Option` result types;
* Python's stable `list.sort` is modelled by insertion sort (any two stable
  sorts of the same list by the same key agree elementwise).
-/

namespace Reliability

/-! ## Binomial distribution model
Embeds `src/binomial_distribution/binomial_distribution.py`. -/

/-- The module-level tolerance constant `TOL = 1E-6`. -/
def TOL : ℚ := 1 / 1000000

/-- `scipy.stats.binom.pmf(k, n, p)` in exact arithmetic: the binomial
probability mass `C(n,k) * p^k * (1-p)^(n-k)`. -/
def binomPmfQ (n k : ℕ) (p : ℚ) : ℚ :=
  (n.choose k : ℚ) * p ^ k * (1 - p) ^ (n - k)

/-- `scipy.stats.binom.cdf(k, n, p)` in exact arithmetic: the cumulative sum
of the probability masses for outcomes `0..k`. -/
def binomCdfQ (n k : ℕ) (p : ℚ) : ℚ :=
  ∑ i ∈ Finset.range (k + 1), binomPmfQ n i p

/-- The `for c in np.arange(0, n+1)` loop of `binomial_model.reset_model`:
starting from index `c`, walk forward until the break condition
`cdf_data[c] > 1 - TOL` fires or the index range `0..n` is exhausted, and
return the index at which the loop stopped.  `fuel` bounds the number of
remaining iterations; the loop is entered with `fuel = n` so that the walk
can reach `c = n`. -/
def resetLoop (n : ℕ) (p : ℚ) : ℕ → ℕ → ℕ
  | c, 0 => c
  | c, fuel + 1 =>
    if 1 - TOL < binomCdfQ n c p then c
    else if c < n then resetLoop n p (c + 1) fuel
    else c

/-- The index at which `reset_model`'s loop stops: the first `k ≤ n` with
`cdf[k] > 1 - TOL`, or `n` if the condition never fires. -/
def stopIndex (n : ℕ) (p : ℚ) : ℕ :=
  resetLoop n p 0 n

/-- State of `binomial_model`: the parameters `n` and `pfail` together with
the three parallel data arrays produced by `reset_model`. -/
structure BinModel where
  n : ℕ
  pfail : ℚ
  x_data : List ℕ
  pmf_data : List ℚ
  cdf_data : List ℚ

/-- `binomial_model.reset_model`: regenerate the three data arrays from the
current parameters, truncating them to indices `0..c` where `c` is the index
at which the loop stopped (the source preallocates arrays of length `n+1`
and slices `[0:c+1]` afterwards; only the filled prefix survives). -/
def resetModel (s : BinModel) : BinModel :=
  let c := stopIndex s.n s.pfail
  { s with
    x_data := List.range (c + 1)
    pmf_data := (List.range (c + 1)).map fun k => binomPmfQ s.n k s.pfail
    cdf_data := (List.range (c + 1)).map fun k => binomCdfQ s.n k s.pfail }

/-- `binomial_model.__init__`: store the parameters and compute the data
eagerly via `reset_model`. -/
def mkBinomialModel (n : ℕ) (pfail : ℚ) : BinModel :=
  resetModel ⟨n, pfail, [], [], []⟩

/-- `binomial_model.update_pfail`: stores the new `pfail` value only; it does
not touch the data arrays. -/
def update_pfail (s : BinModel) (pfail : ℚ) : BinModel :=
  { s with pfail := pfail }

/-- `binomial_model.update_n`: stores the new sample size only; it does not
touch the data arrays. -/
def update_n (s : BinModel) (n : ℕ) : BinModel :=
  { s with n := n }

/-- `binomial_plot.pfail_update`: the text-box submit handler.  The result of
Python's `float(val)` is modelled as an `Option ℚ` (`none` = `ValueError`).
On a parse failure or an out-of-range value the handler prints a message and
returns, leaving the model untouched; the printed error message is modelled
as the `Option String` component of the result.  On success it stores the new
parameter and recomputes the data (`update_data` calls `reset_model`). -/
def pfail_update (s : BinModel) (val : Option ℚ) : BinModel × Option String :=
  match val with
  | none => (s, some "Invalid probability of failure")
  | some pfail =>
    if 1 < pfail then (s, some "Probability of failure must be less than 1.0")
    else if pfail < 0 then (s, some "Probability of failure must be more than 0.0")
    else (resetModel (update_pfail s pfail), none)

/-- `binomial_plot.n_update`: the sample-size submit handler.  The result of
Python's `int(val)` is modelled as an `Option ℤ`; values above `10000` or
below `1` are rejected without mutating the model.  On success the validated
value is positive, so storing it as a natural number is faithful. -/
def n_update (s : BinModel) (val : Option ℤ) : BinModel × Option String :=
  match val with
  | none => (s, some "Invalid sample size n")
  | some n =>
    if 10000 < n then (s, some "Sample size must be less than 10000")
    else if n < 1 then (s, some "Sample size must be more than 0")
    else (resetModel (update_n s n.toNat), none)

/-! ## OC curve model
Embeds `src/oc_curve/oc_curve.py` and the numeric parts of
`src/oc_curve/oc_plot.py`. -/

/-- `np.arange(0.0, stop, step)` for a positive `step`: the values
`0, step, 2*step, ...` strictly below `stop`; the number of points is
`⌈stop/step⌉` (zero when `stop ≤ 0`). -/
def arangeQ (stop step : ℚ) : List ℚ :=
  (List.range (⌈stop / step⌉.toNat)).map fun i : ℕ => (i : ℚ) * step

/-- `get_oc(k, n, p_end, p_step)`: over the sampled defect probabilities
`x = arange(0, p_end, p_step)`, the acceptance probability at each sample is
the accumulated sum of `binom.pmf(kk, n, pp)` for `kk` in `0..k`. -/
def getOC (k n : ℕ) (p_end p_step : ℚ) : List ℚ × List ℚ :=
  let x := arangeQ p_end p_step
  (x, x.map fun pp => ∑ kk ∈ Finset.range (k + 1), binomPmfQ n kk pp)

/-- Comparison of `(index, distance)` pairs by distance: the sort key
`lambda xx: xx[1]` used in `get_envelope`. -/
def distLE (a b : ℕ × ℚ) : Prop := a.2 ≤ b.2

instance : DecidableRel distLE := fun a b => inferInstanceAs (Decidable (a.2 ≤ b.2))

instance : IsTotal (ℕ × ℚ) distLE := ⟨fun a b => le_total a.2 b.2⟩

instance : IsTrans (ℕ × ℚ) distLE := ⟨fun _ _ _ h1 h2 => le_trans h1 h2⟩

/-- `get_envelope(x, target)`: pair every index with the absolute distance of
its value from the target, sort ascending by distance (Python's stable sort,
modelled as insertion sort), and return the indices of the two smallest
entries.  The source reads `d[0]` and `d[1]` directly, which raises
`IndexError` on a list with fewer than two elements; that failure is the
`none` case. -/
def getEnvelope (x : List ℚ) (target : ℚ) : Option (ℕ × ℕ) :=
  let d := x.enum.map fun q => (q.1, |target - q.2|)
  match List.insertionSort distLE d with
  | a :: b :: _ => some (a.1, b.1)
  | _ => none

/-- State of the `oc_curve` class: the sampling-plan parameters and the last
computed curve data. -/
structure OCModel where
  sample_size : ℕ
  n_accept : ℕ
  alpha : ℚ
  beta : ℚ
  x_data : List ℚ
  y_data : List ℚ

/-- `oc_curve.make_data(p_end, p_step)`: regenerate the curve data from the
current plan parameters. -/
def make_data (s : OCModel) (p_end p_step : ℚ) : OCModel :=
  let xy := getOC s.n_accept s.sample_size p_end p_step
  { s with x_data := xy.1, y_data := xy.2 }

/-- `oc_curve.__init__`: store the parameters and compute the curve with the
default range `p_end = 0.20`, `p_step = 0.001`. -/
def mkOCModel (sample_size acceptance_number : ℕ) (alpha beta : ℚ) : OCModel :=
  make_data ⟨sample_size, acceptance_number, alpha, beta, [], []⟩ (1/5) (1/1000)

/-- `oc_curve.update_sample_size`: store the new sample size, then regenerate
the data with the default range. -/
def update_sample_size (s : OCModel) (sample_size : ℕ) : OCModel :=
  make_data { s with sample_size := sample_size } (1/5) (1/1000)

/-- `oc_curve.update_acceptance_number`: store the new acceptance number,
then regenerate the data with the default range. -/
def update_acceptance_number (s : OCModel) (n_accept : ℕ) : OCModel :=
  make_data { s with n_accept := n_accept } (1/5) (1/1000)

/-- `oc_plotter.get_line(idx_l, idx_r)`: gradient and y-intercept of the
straight line through the data points at the two indices. -/
def getLine (xs ys : List ℚ) (idx_l idx_r : ℕ) : ℚ × ℚ :=
  let xl := xs.getD idx_l 0
  let xr := xs.getD idx_r 0
  let yl := ys.getD idx_l 0
  let yr := ys.getD idx_r 0
  let m := (yr - yl) / (xr - xl)
  (m, yl - m * xl)

/-- The numeric core of `oc_plotter.alpha_update`: from the alpha risk `val`,
form the target acceptance probability `y_target = 1 - val`, locate the two
samples of `y_data` nearest to it, fit a line through the corresponding
`(x, y)` points and solve for `x` at `y_target`.  (The AQL text-box and
plot-marker updates are presentation effects outside this model; the
envelope's `IndexError` on short data propagates as `none`.) -/
def alpha_update (xs ys : List ℚ) (val : ℚ) : Option ℚ :=
  let y_target := 1 - val
  match getEnvelope ys y_target with
  | none => none
  | some (il, ir) =>
    let mc := getLine xs ys il ir
    some ((y_target - mc.2) / mc.1)

/-! ## Weibull functions and model
Embeds `src/weibull_plot/weibull.py` and the model class of
`src/weibull_plot/weibull_plotter.py`.  `pow` on floats with a real exponent
is real exponentiation; `math.e` is `Real.exp 1`. -/

/-- `weibull.pdf(t, m, c) = m/t * pow(t/c, m) * pow(math.e, -pow(t/c, m))`. -/
noncomputable def pdf (t m c : ℝ) : ℝ :=
  m / t * (t / c) ^ m * Real.exp 1 ^ (-(t / c) ^ m)

/-- `weibull.cdf(t, m, c) = 1.0 - pow(math.e, -pow(t/c, m))`. -/
noncomputable def cdf (t m c : ℝ) : ℝ :=
  1 - Real.exp 1 ^ (-(t / c) ^ m)

/-- `weibull.hazard(t, m, c) = m/t * pow(t/c, m)`. -/
noncomputable def hazard (t m c : ℝ) : ℝ :=
  m / t * (t / c) ^ m

/-- Python float division: raises `ZeroDivisionError` on a zero denominator,
otherwise returns the quotient. -/
noncomputable def divE (a b : ℝ) : Except String ℝ :=
  if b = 0 then Except.error "ZeroDivisionError" else Except.ok (a / b)

/-- `weibull.pdf` with Python's failure behaviour made explicit: the source
first computes `p = -pow(t/c, m)` (failing if `c = 0`), then evaluates
`m/t * pow(t/c, m) * pow(math.e, p)` (failing if `t = 0`).  No path raises
anything other than a raw `ZeroDivisionError`. -/
noncomputable def pdfE (t m c : ℝ) : Except String ℝ :=
  match divE t c with
  | Except.error e => Except.error e
  | Except.ok q =>
    match divE m t with
    | Except.error e => Except.error e
    | Except.ok r => Except.ok (r * q ^ m * Real.exp 1 ^ (-q ^ m))

/-- `weibull.cdf` with Python's failure behaviour made explicit: only the
division `t/c` can raise; `t = 0` is accepted and yields `cdf = 0`. -/
noncomputable def cdfE (t m c : ℝ) : Except String ℝ :=
  match divE t c with
  | Except.error e => Except.error e
  | Except.ok q => Except.ok (1 - Real.exp 1 ^ (-q ^ m))

/-- State of `weibull_model`: shape `m`, scale `c`, the horizontal axis data
and the three vertical data arrays. -/
structure WModel where
  m : ℝ
  c : ℝ
  t_data : List ℝ
  cdf_data : List ℝ
  pdf_data : List ℝ
  h_data : List ℝ

/-- `weibull_model.reset_model`: regenerate the three vertical data arrays by
mapping the Weibull functions over the stored `t_data` with the current
parameters. -/
noncomputable def resetModelW (s : WModel) : WModel :=
  { s with
    cdf_data := s.t_data.map fun t => cdf t s.m s.c
    pdf_data := s.t_data.map fun t => pdf t s.m s.c
    h_data := s.t_data.map fun t => hazard t s.m s.c }

/-- `weibull_model.update_m`: store the new shape parameter, then refresh the
model data via `reset_model`. -/
noncomputable def update_m (s : WModel) (m : ℝ) : WModel :=
  resetModelW { s with m := m }

/-! ## Real-valued binomial CDF (analysis auxiliary)
The rational evaluator above is the executable embedding; for the
monotonicity argument the same functions are considered over `ℝ`. -/

/-- The binomial probability mass over `ℝ`. -/
def binomPmfR (n k : ℕ) (p : ℝ) : ℝ :=
  (n.choose k : ℝ) * p ^ k * (1 - p) ^ (n - k)

/-- The binomial CDF over `ℝ`. -/
def binomCdfR (n k : ℕ) (p : ℝ) : ℝ :=
  ∑ i ∈ Finset.range (k + 1), binomPmfR n i p

/-! ## Properties of `get_envelope` -/

/-- Every element of the distance list built inside `get_envelope` pairs an
in-range index with the distance of the corresponding data value from the
target. -/
theorem envelope_elem_dist (x : List ℚ) (target : ℚ) (a : ℕ × ℚ)
    (ha : a ∈ x.enum.map fun q => (q.1, |target - q.2|)) :
    a.1 < x.length ∧ a.2 = |target - x.getD a.1 0| := by
  obtain ⟨q, hq, hqa⟩ := List.mem_map.mp ha
  have hq' := List.mem_enum_iff_getElem?.mp hq
  obtain ⟨hlt, hget⟩ := List.getElem?_eq_some.mp hq'
  subst hqa
  refine ⟨hlt, ?_⟩
  rw [List.getD_eq_getElem _ _ hlt, hget]

/-- Conversely, every in-range index contributes its distance pair to the
list built inside `get_envelope`. -/
theorem dist_elem_envelope (x : List ℚ) (target : ℚ) (l : ℕ) (hl : l < x.length) :
    (l, |target - x.getD l 0|) ∈ x.enum.map fun q => (q.1, |target - q.2|) := by
  refine List.mem_map.mpr ⟨(l, x.getD l 0), ?_, rfl⟩
  rw [List.mem_enum_iff_getElem?]
  simp [List.getD_eq_getElem _ _ hl, List.getElem?_eq_some, hl]

/-- The indices carried by the distance list are exactly `0..len-1`. -/
theorem envelope_map_fst (x : List ℚ) (target : ℚ) :
    (x.enum.map fun q => (q.1, |target - q.2|)).map Prod.fst = List.range x.length := by
  rw [List.map_map]
  have h : (Prod.fst ∘ fun q : ℕ × ℚ => (q.1, |target - q.2|)) = Prod.fst := rfl
  rw [h, List.enum_map_fst]

/-- Characterisation of a successful `get_envelope` call: the two returned
indices are distinct in-range indices whose distances from the target are the
two smallest over the whole list (first no larger than second, both no larger
than the distance at any other index). -/
theorem getEnvelope_spec (x : List ℚ) (target : ℚ) (i j : ℕ)
    (h : getEnvelope x target = some (i, j)) :
    i < x.length ∧ j < x.length ∧ i ≠ j
      ∧ |target - x.getD i 0| ≤ |target - x.getD j 0|
      ∧ ∀ l, l < x.length → l ≠ i → l ≠ j →
          |target - x.getD i 0| ≤ |target - x.getD l 0|
            ∧ |target - x.getD j 0| ≤ |target - x.getD l 0| := by
  have hperm := List.perm_insertionSort distLE (x.enum.map fun q => (q.1, |target - q.2|))
  have hsort := List.sorted_insertionSort distLE (x.enum.map fun q => (q.1, |target - q.2|))
  simp only [getEnvelope] at h
  rcases hs2 : List.insertionSort distLE (x.enum.map fun q => (q.1, |target - q.2|))
    with _ | ⟨a, _ | ⟨b, rest⟩⟩
  · rw [hs2] at h
    exact absurd h (by simp)
  · rw [hs2] at h
    exact absurd h (by simp)
  · rw [hs2] at h hperm hsort
    simp only [Option.some.injEq, Prod.mk.injEq] at h
    obtain ⟨hi, hj⟩ := h
    have ha : a ∈ x.enum.map fun q => (q.1, |target - q.2|) :=
      hperm.subset (by simp)
    have hb : b ∈ x.enum.map fun q => (q.1, |target - q.2|) :=
      hperm.subset (by simp)
    obtain ⟨hai, ha2⟩ := envelope_elem_dist x target a ha
    obtain ⟨hbj, hb2⟩ := envelope_elem_dist x target b hb
    have hnd : ((a :: b :: rest).map Prod.fst).Nodup := by
      rw [(hperm.map Prod.fst).nodup_iff, envelope_map_fst]
      exact List.nodup_range _
    have hne : a.1 ≠ b.1 := by
      simp only [List.map_cons, List.nodup_cons, List.mem_cons] at hnd
      exact fun hEq => hnd.1 (Or.inl hEq)
    rw [List.sorted_cons] at hsort
    obtain ⟨hab, hsort2⟩ := hsort
    rw [List.sorted_cons] at hsort2
    obtain ⟨hbr, _⟩ := hsort2
    subst hi hj
    refine ⟨hai, hbj, hne, ?_, ?_⟩
    · have hba := hab b (List.mem_cons_self b rest)
      rw [← ha2, ← hb2]
      exact hba
    · intro l hl hli hlj
      have hmem : (l, |target - x.getD l 0|) ∈ a :: b :: rest :=
        hperm.mem_iff.mpr (dist_elem_envelope x target l hl)
      rcases List.mem_cons.mp hmem with hEq | hmem2
      · exact absurd (congrArg Prod.fst hEq) hli
      rcases List.mem_cons.mp hmem2 with hEq | hmem3
      · exact absurd (congrArg Prod.fst hEq) hlj
      · have h1 := hab _ (List.mem_cons_of_mem b hmem3)
        have h2 := hbr _ hmem3
        exact ⟨by rw [← ha2]; exact h1, by rw [← hb2]; exact h2⟩

/-! ## C10: envelope index safety -/

/-- C10: on a list with at least two elements `get_envelope` returns two
distinct in-range indices; on a list with fewer than two elements the
`d[0]`/`d[1]` accesses fail (`none`), so interpolation callers must supply at
least two samples. -/
theorem get_envelope_index_safety (x : List ℚ) (target : ℚ) :
    (2 ≤ x.length → ∃ i j, getEnvelope x target = some (i, j)
        ∧ i ≠ j ∧ i < x.length ∧ j < x.length)
      ∧ (x.length < 2 → getEnvelope x target = none) := by
  have hlen : (List.insertionSort distLE (x.enum.map fun q => (q.1, |target - q.2|))).length
      = x.length := by
    rw [(List.perm_insertionSort distLE _).length_eq, List.length_map, List.enum_length]
  rcases hs2 : List.insertionSort distLE (x.enum.map fun q => (q.1, |target - q.2|))
    with _ | ⟨a, _ | ⟨b, rest⟩⟩ <;> rw [hs2] at hlen <;> simp at hlen
  · constructor
    · intro h2; omega
    · intro _
      simp only [getEnvelope]
      rw [hs2]
  · constructor
    · intro h2; omega
    · intro _
      simp only [getEnvelope]
      rw [hs2]
  · constructor
    · intro h2
      have henv : getEnvelope x target = some (a.1, b.1) := by
        simp only [getEnvelope]
        rw [hs2]
      obtain ⟨h1, h2', h3, _⟩ := getEnvelope_spec x target a.1 b.1 henv
      exact ⟨a.1, b.1, henv, h3, h1, h2'⟩
    · intro hlt; omega

/-- Witness for C10: a two-element list yields two distinct indices, the
empty list yields the failure case. -/
theorem get_envelope_index_safety_witness :
    (∃ i j, getEnvelope [0, 1] (5:ℚ) = some (i, j)
        ∧ i ≠ j ∧ i < ([0, 1] : List ℚ).length ∧ j < ([0, 1] : List ℚ).length)
      ∧ getEnvelope ([] : List ℚ) 5 = none :=
  ⟨(get_envelope_index_safety [0, 1] 5).1 (by norm_num),
   (get_envelope_index_safety [] 5).2 (by norm_num)⟩

/-! ## C9: quality-limit interpolation -/

/-- `get_line` written out on the four looked-up data values. -/
theorem getLine_eq (xs ys : List ℚ) (il ir : ℕ) :
    getLine xs ys il ir
      = ((ys.getD ir 0 - ys.getD il 0) / (xs.getD ir 0 - xs.getD il 0),
         ys.getD il 0
           - (ys.getD ir 0 - ys.getD il 0) / (xs.getD ir 0 - xs.getD il 0)
             * xs.getD il 0) := rfl

/-- A line `y = m x + c` built from two points passes through the left
point. -/
theorem line_point_left (xl xr yl yr : ℚ) :
    (yr - yl) / (xr - xl) * xl + (yl - (yr - yl) / (xr - xl) * xl) = yl := by
  ring

/-- A line `y = m x + c` built from two points with distinct abscissae passes
through the right point. -/
theorem line_point_right (xl xr yl yr : ℚ) (hx : xl ≠ xr) :
    (yr - yl) / (xr - xl) * xr + (yl - (yr - yl) / (xr - xl) * xl) = yr := by
  have h : xr - xl ≠ 0 := sub_ne_zero_of_ne (Ne.symm hx)
  field_simp
  ring

/-- Solving `m x + c = t` by `x = (t - c)/m` is exact for `m ≠ 0`. -/
theorem line_point_target (mm cc t : ℚ) (hm : mm ≠ 0) :
    mm * ((t - cc) / mm) + cc = t := by
  field_simp

/-- C9: for a target acceptance probability `1 - val`, the interpolation
selects the two samples whose `accept_prob` values have the two smallest
absolute differences from the target (`get_envelope`), fits the straight
line through those two `(p, accept_prob)` points (`get_line`), and
`alpha_update` returns the `p` value at which that line attains the
target probability. -/
theorem quality_limit_interpolation (xs ys : List ℚ) (val : ℚ) (il ir : ℕ)
    (henv : getEnvelope ys (1 - val) = some (il, ir))
    (hx : xs.getD il 0 ≠ xs.getD ir 0)
    (hm : (getLine xs ys il ir).1 ≠ 0) :
    (il < ys.length ∧ ir < ys.length ∧ il ≠ ir
      ∧ |1 - val - ys.getD il 0| ≤ |1 - val - ys.getD ir 0|
      ∧ ∀ l, l < ys.length → l ≠ il → l ≠ ir →
          |1 - val - ys.getD il 0| ≤ |1 - val - ys.getD l 0|
            ∧ |1 - val - ys.getD ir 0| ≤ |1 - val - ys.getD l 0|)
    ∧ ((getLine xs ys il ir).1 * xs.getD il 0 + (getLine xs ys il ir).2 = ys.getD il 0
        ∧ (getLine xs ys il ir).1 * xs.getD ir 0 + (getLine xs ys il ir).2 = ys.getD ir 0)
    ∧ alpha_update xs ys val
        = some ((1 - val - (getLine xs ys il ir).2) / (getLine xs ys il ir).1)
    ∧ (getLine xs ys il ir).1
          * ((1 - val - (getLine xs ys il ir).2) / (getLine xs ys il ir).1)
        + (getLine xs ys il ir).2 = 1 - val := by
  refine ⟨getEnvelope_spec ys (1 - val) il ir henv, ⟨?_, ?_⟩, ?_, ?_⟩
  · rw [getLine_eq]
    exact line_point_left _ _ _ _
  · rw [getLine_eq]
    exact line_point_right _ _ _ _ hx
  · simp only [alpha_update]
    rw [henv]
  · exact line_point_target _ _ _ hm

/-- Witness for C9 on the two-point data set `xs = [0, 1/2]`,
`ys = [1, 0]` with alpha risk `1/4`. -/
theorem quality_limit_interpolation_witness :
    alpha_update [0, 1/2] [1, 0] (1/4)
      = some ((1 - 1/4 - (getLine [0, 1/2] [1, 0] 0 1).2)
          / (getLine [0, 1/2] [1, 0] 0 1).1) :=
  (quality_limit_interpolation [0, 1/2] [1, 0] (1/4) 0 1
    (by norm_num [getEnvelope, List.enum, List.enumFrom, List.insertionSort,
      List.orderedInsert, distLE, abs_of_nonneg])
    (by norm_num [List.getD])
    (by norm_num [getLine_eq, List.getD])).2.2.1

/-! ## Loop invariant of `reset_model` -/

/-- Invariant of the `reset_model` loop: started at index `c` with enough
fuel to reach `n`, the loop stops at an index between `c` and `n`; no index
strictly before the stop satisfied the break condition; and at the stop index
either the break condition holds or the index range was exhausted. -/
theorem resetLoop_spec (n : ℕ) (p : ℚ) (fuel : ℕ) :
    ∀ c : ℕ, c + fuel = n →
      c ≤ resetLoop n p c fuel ∧ resetLoop n p c fuel ≤ n
        ∧ (∀ i, c ≤ i → i < resetLoop n p c fuel → ¬(1 - TOL < binomCdfQ n i p))
        ∧ (1 - TOL < binomCdfQ n (resetLoop n p c fuel) p ∨ resetLoop n p c fuel = n) := by
  induction fuel with
  | zero =>
    intro c hc
    simp only [resetLoop]
    exact ⟨le_rfl, by omega, fun i h1 h2 => by omega, Or.inr (by omega)⟩
  | succ f ih =>
    intro c hc
    have hcn : c < n := by omega
    by_cases hcond : 1 - TOL < binomCdfQ n c p
    · have hr : resetLoop n p c (f + 1) = c := by
        simp only [resetLoop]
        rw [if_pos hcond]
      rw [hr]
      exact ⟨le_rfl, le_of_lt hcn, fun i h1 h2 => by omega, Or.inl hcond⟩
    · have hr : resetLoop n p c (f + 1) = resetLoop n p (c + 1) f := by
        simp only [resetLoop]
        rw [if_neg hcond, if_pos hcn]
      obtain ⟨ih1, ih2, ih3, ih4⟩ := ih (c + 1) (by omega)
      rw [hr]
      refine ⟨by omega, ih2, ?_, ih4⟩
      intro i h1 h2
      rcases eq_or_lt_of_le h1 with rfl | h1'
      · exact hcond
      · exact ih3 i (by omega) h2

/-! ## C8: early-exit truncation -/

/-- C8: the binomial evaluator stops at the first `k` whose `cdf[k]` exceeds
`1 - 1e-6`; the three returned sequences all have length `stopIndex + 1`
(equal lengths, no padding), every cdf value before the stop index is at most
`1 - 1e-6`, the stop index is the least exceeding index when one exists, and
when no `k ≤ n` exceeds the threshold all `n + 1` points are returned. -/
theorem reset_model_truncation (n : ℕ) (p : ℚ) :
    ((mkBinomialModel n p).x_data.length = stopIndex n p + 1
      ∧ (mkBinomialModel n p).pmf_data.length = stopIndex n p + 1
      ∧ (mkBinomialModel n p).cdf_data.length = stopIndex n p + 1)
    ∧ stopIndex n p ≤ n
    ∧ (∀ i, i < stopIndex n p → binomCdfQ n i p ≤ 1 - TOL)
    ∧ ((∃ j, j ≤ n ∧ 1 - TOL < binomCdfQ n j p) →
         1 - TOL < binomCdfQ n (stopIndex n p) p
           ∧ ∀ j, j ≤ n → 1 - TOL < binomCdfQ n j p → stopIndex n p ≤ j)
    ∧ ((∀ j, j ≤ n → binomCdfQ n j p ≤ 1 - TOL) → stopIndex n p = n) := by
  obtain ⟨h0, h1, h2, h3⟩ := resetLoop_spec n p n 0 (by omega)
  have hstop : stopIndex n p = resetLoop n p 0 n := rfl
  rw [← hstop] at h0 h1 h2 h3
  have hmin : ∀ j, 1 - TOL < binomCdfQ n j p → stopIndex n p ≤ j := by
    intro j hcj
    by_contra hlt
    exact h2 j (Nat.zero_le _) (by omega) hcj
  refine ⟨⟨?_, ?_, ?_⟩, h1, ?_, ?_, ?_⟩
  · simp [mkBinomialModel, resetModel]
  · simp [mkBinomialModel, resetModel]
  · simp [mkBinomialModel, resetModel]
  · intro i hi
    exact not_lt.mp (h2 i (Nat.zero_le _) hi)
  · rintro ⟨j, hjn, hcj⟩
    rcases h3 with hc | heq
    · exact ⟨hc, fun j' _ hcj' => hmin j' hcj'⟩
    · have hj : j = n := le_antisymm hjn (heq ▸ hmin j hcj)
      refine ⟨?_, fun j' _ hcj' => hmin j' hcj'⟩
      subst hj
      rw [heq]
      exact hcj
  · intro hall
    rcases h3 with hc | heq
    · exact absurd (hall _ h1) (not_le.mpr hc)
    · exact heq

/-- Witness for C8 at `n = 1`, `p = 0`: the data has `stopIndex + 1` points
and the cdf at the stop index exceeds the threshold. -/
theorem reset_model_truncation_witness :
    (mkBinomialModel 1 0).pmf_data.length = stopIndex 1 0 + 1
      ∧ 1 - TOL < binomCdfQ 1 (stopIndex 1 0) 0 :=
  ⟨(reset_model_truncation 1 0).1.2.1,
   ((reset_model_truncation 1 0).2.2.2.1
      ⟨0, by norm_num, by norm_num [binomCdfQ, binomPmfQ, TOL, Finset.sum_range_succ]⟩).1⟩

/-! ## C1: retained pmf and cdf values -/

/-- C1: for `n ≥ 1` and `0 ≤ p ≤ 1`, every retained index `k` of the data
produced by `reset_model` carries `pmf[k] = C(n,k) * p^k * (1-p)^(n-k)` and
`cdf[k] = Σ_{i=0..k} C(n,i) * p^i * (1-p)^(n-i)`. -/
theorem reset_model_pmf_cdf (n : ℕ) (p : ℚ) (hn : 1 ≤ n) (hp0 : 0 ≤ p) (hp1 : p ≤ 1) :
    ∀ k, k < (mkBinomialModel n p).pmf_data.length →
      (mkBinomialModel n p).pmf_data.getD k 0
          = (n.choose k : ℚ) * p ^ k * (1 - p) ^ (n - k)
        ∧ (mkBinomialModel n p).cdf_data.getD k 0
          = ∑ i ∈ Finset.range (k + 1), (n.choose i : ℚ) * p ^ i * (1 - p) ^ (n - i) := by
  intro k hk
  have hk' : k < stopIndex n p + 1 := by
    simpa [mkBinomialModel, resetModel] using hk
  have hpmf : (mkBinomialModel n p).pmf_data
      = (List.range (stopIndex n p + 1)).map fun j => binomPmfQ n j p := rfl
  have hcdf : (mkBinomialModel n p).cdf_data
      = (List.range (stopIndex n p + 1)).map fun j => binomCdfQ n j p := rfl
  constructor
  · rw [hpmf, List.getD_eq_getElem _ _ (by simpa using hk')]
    simp [binomPmfQ]
  · rw [hcdf, List.getD_eq_getElem _ _ (by simpa using hk')]
    simp [binomCdfQ, binomPmfQ]

/-- Witness for C1 at `n = 1`, `p = 0`, `k = 0`. -/
theorem reset_model_pmf_cdf_witness :
    (mkBinomialModel 1 0).pmf_data.getD 0 0
      = ((1:ℕ).choose 0 : ℚ) * (0:ℚ) ^ 0 * (1 - 0) ^ (1 - 0) :=
  ((reset_model_pmf_cdf 1 0 le_rfl le_rfl zero_le_one) 0
    (by norm_num [mkBinomialModel, resetModel, stopIndex, resetLoop, binomCdfQ,
      binomPmfQ, TOL, Finset.sum_range_succ])).1

/-! ## Monotonicity of the binomial CDF in `p` -/

/-- `(j+1) * C(n, j+1) = n * C(n-1, j)` (absorption identity). -/
theorem choose_mul_left (n j : ℕ) (h : j + 1 ≤ n) :
    (j + 1) * n.choose (j + 1) = n * (n - 1).choose j := by
  cases n with
  | zero => omega
  | succ m =>
    have h2 := Nat.succ_mul_choose_eq m j
    simpa [Nat.mul_comm] using h2.symm

/-- `(n-j) * C(n, j) = n * C(n-1, j)` for `j < n`. -/
theorem choose_mul_right (n j : ℕ) (h : j < n) :
    (n - j) * n.choose j = n * (n - 1).choose j := by
  have h1 := Nat.choose_succ_right_eq n j
  have h2 := choose_mul_left n j h
  calc (n - j) * n.choose j = n.choose j * (n - j) := Nat.mul_comm _ _
    _ = n.choose (j + 1) * (j + 1) := h1.symm
    _ = (j + 1) * n.choose (j + 1) := Nat.mul_comm _ _
    _ = n * (n - 1).choose j := h2

/-- Derivative in `p` of one binomial pmf term. -/
theorem hasDerivAt_binomPmfR (n j : ℕ) (p : ℝ) :
    HasDerivAt (fun q => binomPmfR n j q)
      ((n.choose j : ℝ) * ((j : ℝ) * p ^ (j - 1) * (1 - p) ^ (n - j)
        - ((n - j : ℕ) : ℝ) * p ^ j * (1 - p) ^ (n - j - 1))) p := by
  have h1 : HasDerivAt (fun q : ℝ => q ^ j) ((j : ℝ) * p ^ (j - 1)) p := hasDerivAt_pow j p
  have h2 : HasDerivAt (fun q : ℝ => (1 - q) ^ (n - j))
      (-(((n - j : ℕ) : ℝ) * (1 - p) ^ (n - j - 1))) p := by
    have h3 := (hasDerivAt_pow (n - j) (1 - p)).comp p ((hasDerivAt_id p).const_sub 1)
    simpa using h3
  have h4 := (h1.mul h2).const_mul (n.choose j : ℝ)
  have h5 : (fun q => binomPmfR n j q) = fun q : ℝ =>
      (n.choose j : ℝ) * (q ^ j * (1 - q) ^ (n - j)) := by
    funext q
    rw [binomPmfR]
    ring
  rw [h5]
  convert h4 using 1
  ring

/-- Derivative in `p` of the binomial CDF at level `k < n`: the sum
telescopes to `-n * C(n-1, k) * p^k * (1-p)^(n-1-k)`. -/
theorem hasDerivAt_binomCdfR (n k : ℕ) (hk : k < n) (p : ℝ) :
    HasDerivAt (fun q => binomCdfR n k q)
      (-(((n * (n - 1).choose k : ℕ)) : ℝ) * (p ^ k * (1 - p) ^ (n - 1 - k))) p := by
  induction k with
  | zero =>
    have h0 : (fun q => binomCdfR n 0 q) = fun q => binomPmfR n 0 q := by
      funext q
      rw [binomCdfR, Finset.sum_range_one]
    rw [h0]
    have h1 := hasDerivAt_binomPmfR n 0 p
    convert h1 using 1
    push_cast
    simp [Nat.sub_zero]
  | succ k ih =>
    have hk' : k < n := by omega
    have hsum : (fun q => binomCdfR n (k + 1) q)
        = fun q => binomCdfR n k q + binomPmfR n (k + 1) q := by
      funext q
      rw [binomCdfR, binomCdfR, Finset.sum_range_succ]
    rw [hsum]
    have h1 := (ih hk').add (hasDerivAt_binomPmfR n (k + 1) p)
    convert h1 using 1
    have e1 : ((k : ℝ) + 1) * (n.choose (k + 1) : ℝ) = (n : ℝ) * ((n - 1).choose k : ℝ) := by
      exact_mod_cast congrArg (fun t : ℕ => (t : ℝ)) (choose_mul_left n k (by omega))
    have e2 : ((n - (k + 1) : ℕ) : ℝ) * (n.choose (k + 1) : ℝ)
        = (n : ℝ) * ((n - 1).choose (k + 1) : ℝ) := by
      exact_mod_cast congrArg (fun t : ℕ => (t : ℝ)) (choose_mul_right n (k + 1) hk)
    have hA1 : n - 1 - k = n - (k + 1) := by omega
    have hA2 : n - 1 - (k + 1) = n - (k + 1) - 1 := by omega
    rw [hA1, hA2]
    push_cast
    push_cast at e1 e2
    linear_combination (p ^ (k + 1) * (1 - p) ^ (n - (k + 1) - 1)) * e2
      - (p ^ k * (1 - p) ^ (n - (k + 1))) * e1

/-- The binomial CDF at level `k < n` is non-increasing in `p` on `[0,1]`:
its derivative `-n * C(n-1,k) * p^k * (1-p)^(n-1-k)` is nonpositive there. -/
theorem binomCdfR_antitoneOn (n k : ℕ) (hk : k < n) :
    AntitoneOn (binomCdfR n k) (Set.Icc 0 1) := by
  have hdiff : ∀ p : ℝ, HasDerivAt (fun q => binomCdfR n k q)
      (-(((n * (n - 1).choose k : ℕ)) : ℝ) * (p ^ k * (1 - p) ^ (n - 1 - k))) p :=
    fun p => hasDerivAt_binomCdfR n k hk p
  apply antitoneOn_of_deriv_nonpos (convex_Icc 0 1)
  · exact (Differentiable.continuous fun p => (hdiff p).differentiableAt).continuousOn
  · exact fun p _ => ((hdiff p).differentiableAt).differentiableWithinAt
  · intro p hp
    rw [interior_Icc] at hp
    rw [(hdiff p).deriv]
    have h1 : (0:ℝ) ≤ ((n * (n - 1).choose k : ℕ) : ℝ) := Nat.cast_nonneg _
    have h2 : (0:ℝ) ≤ p ^ k := pow_nonneg (le_of_lt hp.1) k
    have h3 : (0:ℝ) ≤ (1 - p) ^ (n - 1 - k) := pow_nonneg (by linarith [hp.2]) _
    have h4 := mul_nonneg h1 (mul_nonneg h2 h3)
    linarith

/-- The exact rational evaluator and the real CDF agree under the cast. -/
theorem binomCdfQ_cast (n k : ℕ) (p : ℚ) :
    ((binomCdfQ n k p : ℚ) : ℝ) = binomCdfR n k (p : ℝ) := by
  rw [binomCdfQ, binomCdfR]
  push_cast [binomPmfQ, binomPmfR]
  rfl

/-- At `p = 0` the binomial CDF is exactly `1`. -/
theorem binomCdfQ_zero (n k : ℕ) : binomCdfQ n k 0 = 1 := by
  rw [binomCdfQ, Finset.sum_eq_single 0]
  · simp [binomPmfQ]
  · intro i _ hne
    simp [binomPmfQ, zero_pow hne]
  · intro h
    simp at h

/-! ## C2: OC curve invariants -/

/-- C2: for an acceptance number `k` and sample size `n > k`, and a sampling
grid of positive step contained in `[0,1]`, the acceptance-probability
sequence returned by `get_oc` is non-increasing along the sampled defect
probabilities, and at the first sample (which is `p = 0`) it equals `1`
exactly. -/
theorem get_oc_antitone_and_one_at_zero (k n : ℕ) (hkn : k < n) (p_end p_step : ℚ)
    (hstep : 0 < p_step) (hend : p_end ≤ 1) :
    (∀ i j : ℕ, i ≤ j → j < (getOC k n p_end p_step).2.length →
      (getOC k n p_end p_step).2.getD j 0 ≤ (getOC k n p_end p_step).2.getD i 0)
      ∧ (0 < p_end → (getOC k n p_end p_step).1.getD 0 0 = 0
          ∧ (getOC k n p_end p_step).2.getD 0 0 = 1) := by
  have hlen : (getOC k n p_end p_step).2.length = (⌈p_end / p_step⌉).toNat := by
    simp only [getOC, arangeQ, List.length_map, List.length_range]
  have hval : ∀ j : ℕ, j < (⌈p_end / p_step⌉).toNat →
      (getOC k n p_end p_step).2.getD j 0 = binomCdfQ n k ((j : ℚ) * p_step) := by
    intro j hj
    rw [List.getD_eq_getElem _ _ (by rw [hlen]; exact hj)]
    simp only [getOC, arangeQ, List.getElem_map, List.getElem_range]
    rfl
  have hlt : ∀ j : ℕ, j < (⌈p_end / p_step⌉).toNat → (j : ℚ) * p_step < p_end := by
    intro j hj
    have h1 : ((j : ℤ)) < ⌈p_end / p_step⌉ := Int.lt_toNat.mp hj
    have h2 : ((j : ℚ)) < p_end / p_step := by exact_mod_cast Int.lt_ceil.mp h1
    calc (j : ℚ) * p_step < p_end / p_step * p_step :=
          mul_lt_mul_of_pos_right h2 hstep
      _ = p_end := div_mul_cancel₀ _ (ne_of_gt hstep)
  have hmem : ∀ j : ℕ, j < (⌈p_end / p_step⌉).toNat →
      (((j : ℚ) * p_step : ℚ) : ℝ) ∈ Set.Icc (0:ℝ) 1 := by
    intro j hj
    constructor
    · have h : (0:ℚ) ≤ (j : ℚ) * p_step := mul_nonneg (Nat.cast_nonneg j) (le_of_lt hstep)
      exact_mod_cast h
    · have h : (j : ℚ) * p_step ≤ 1 := le_of_lt (lt_of_lt_of_le (hlt j hj) hend)
      exact_mod_cast h
  constructor
  · intro i j hij hj
    rw [hlen] at hj
    have hi : i < (⌈p_end / p_step⌉).toNat := lt_of_le_of_lt hij hj
    rw [hval j hj, hval i hi]
    have hle : (((i : ℚ) * p_step : ℚ) : ℝ) ≤ (((j : ℚ) * p_step : ℚ) : ℝ) := by
      have h : (i : ℚ) * p_step ≤ (j : ℚ) * p_step :=
        mul_le_mul_of_nonneg_right (by exact_mod_cast hij) (le_of_lt hstep)
      exact_mod_cast h
    have h := binomCdfR_antitoneOn n k hkn (hmem i hi) (hmem j hj) hle
    rw [← binomCdfQ_cast, ← binomCdfQ_cast] at h
    exact_mod_cast h
  · intro hpe
    have h0 : 0 < (⌈p_end / p_step⌉).toNat := by
      rw [Int.lt_toNat]
      exact_mod_cast Int.ceil_pos.mpr (div_pos hpe hstep)
    constructor
    · rw [List.getD_eq_getElem _ _ (by simpa [getOC, arangeQ] using h0)]
      simp only [getOC, arangeQ, List.getElem_map, List.getElem_range]
      norm_num
    · rw [hval 0 h0]
      simpa using binomCdfQ_zero n k

/-- Witness for C2 with the plan `k = 0`, `n = 1` over the grid
`arange(0, 1/10, 1/10)`: the first sample is `p = 0` and the acceptance
probability there is `1`. -/
theorem get_oc_antitone_and_one_at_zero_witness :
    (getOC 0 1 (1/10) (1/10)).1.getD 0 0 = 0
      ∧ (getOC 0 1 (1/10) (1/10)).2.getD 0 0 = 1 :=
  (get_oc_antitone_and_one_at_zero 0 1 (by norm_num) (1/10) (1/10)
    (by norm_num) (by norm_num)).2 (by norm_num)

/-! ## C7: Weibull closed forms -/

/-- C7: for every `t > 0`, `m > 0`, `c > 0` the Weibull functions compute the
closed forms `cdf(t) = 1 - exp(-(t/c)^m)`, `pdf(t) = (m/t)*(t/c)^m*exp(-(t/c)^m)`
and `hazard(t) = (m/t)*(t/c)^m`. -/
theorem weibull_closed_forms (t m c : ℝ) (ht : 0 < t) (hm : 0 < m) (hc : 0 < c) :
    cdf t m c = 1 - Real.exp (-(t / c) ^ m)
      ∧ pdf t m c = m / t * (t / c) ^ m * Real.exp (-(t / c) ^ m)
      ∧ hazard t m c = m / t * (t / c) ^ m := by
  refine ⟨?_, ?_, rfl⟩ <;> simp [cdf, pdf, Real.exp_one_rpow]

/-- Witness for C7 at `t = m = c = 1`. -/
theorem weibull_closed_forms_witness :
    cdf 1 1 1 = 1 - Real.exp (-((1:ℝ) / 1) ^ (1:ℝ)) :=
  (weibull_closed_forms 1 1 1 one_pos one_pos one_pos).1

/-! ## C6: hazard = pdf / (1 - cdf) -/

/-- C6: for every `t > 0`, `m > 0`, `c > 0` the Weibull functions satisfy
`hazard(t,m,c) = pdf(t,m,c) / (1 - cdf(t,m,c))` exactly in real arithmetic. -/
theorem weibull_hazard_ratio (t m c : ℝ) (ht : 0 < t) (hm : 0 < m) (hc : 0 < c) :
    hazard t m c = pdf t m c / (1 - cdf t m c) := by
  have h1 : (1 : ℝ) - cdf t m c = Real.exp (-(t / c) ^ m) := by
    simp [cdf, Real.exp_one_rpow]
  rw [h1, pdf, Real.exp_one_rpow, hazard, mul_div_assoc,
    div_self (Real.exp_ne_zero _), mul_one]

/-- Witness for C6 at `t = m = c = 1`. -/
theorem weibull_hazard_ratio_witness :
    hazard 1 1 1 = pdf 1 1 1 / (1 - cdf 1 1 1) :=
  weibull_hazard_ratio 1 1 1 one_pos one_pos one_pos

/-! ## C3: error behaviour at the evaluator boundary -/

/-- C3 counterexample: the binomial evaluator, invoked with `n = 0 < 1` and
`p = 3/2 ∉ [0,1]`, completes and returns data instead of failing (its
embedding has no error outcome because no code path in `reset_model`
raises); and the Weibull `pdf` at `t = 0` fails with a raw
`ZeroDivisionError`, not a descriptive `InvalidParameter`, while the Weibull
`cdf` at `t = 0` does not fail at all. -/
theorem evaluator_no_validation_counterexample :
    (mkBinomialModel 0 (3/2)).pmf_data = [1]
      ∧ pdfE 0 1 1 = Except.error "ZeroDivisionError"
      ∧ cdfE 0 1 1 = Except.ok 0 := by
  refine ⟨?_, ?_, ?_⟩
  · norm_num [mkBinomialModel, resetModel, stopIndex, resetLoop, binomPmfQ, List.range_succ]
  · simp [pdfE, divE]
  · simp [cdfE, divE]

/-- C3 (amended): the evaluators perform no input validation and never raise
an `InvalidParameter`: `weibull.pdf` fails at `t = 0` (or `c = 0`) with a raw
`ZeroDivisionError` and succeeds with the closed-form value whenever both
divisions are defined, and `binomial_model.reset_model` always produces data
sequences (one point per loop index up to the stop index), for out-of-domain
parameters as well. -/
theorem evaluator_error_behaviour :
    (∀ m c : ℝ, pdfE 0 m c = Except.error "ZeroDivisionError")
      ∧ (∀ t m c : ℝ, t ≠ 0 → c ≠ 0 → pdfE t m c = Except.ok (pdf t m c))
      ∧ (∀ (n : ℕ) (p : ℚ), (mkBinomialModel n p).pmf_data.length = stopIndex n p + 1) := by
  refine ⟨?_, ?_, ?_⟩
  · intro m c
    by_cases hc : c = 0
    · simp [pdfE, divE, hc]
    · simp [pdfE, divE, hc]
  · intro t m c ht hc
    simp [pdfE, divE, ht, hc, pdf]
  · intro n p
    simp [mkBinomialModel, resetModel]

/-- Witness for the amended C3: at `t = 2`, `m = c = 1` the guarded `pdf`
returns the closed-form value. -/
theorem evaluator_error_behaviour_witness :
    pdfE 2 1 1 = Except.ok (pdf 2 1 1) :=
  evaluator_error_behaviour.2.1 2 1 1 (by norm_num) (by norm_num)

/-! ## C4: parameter updates and recomputation -/

/-- C4 counterexample: `binomial_model.update_pfail` leaves the data stale.
Starting from the model `(n, pfail) = (1, 0)` (whose retained `pmf` data is
`[1]`), updating `pfail` to `1/2` leaves `pmf_data = [1]`, while a full
recomputation from the now-current parameters yields `[1/2, 1/2]`. -/
theorem update_pfail_stale_counterexample :
    (update_pfail (mkBinomialModel 1 0) (1/2)).pmf_data
      ≠ (resetModel (update_pfail (mkBinomialModel 1 0) (1/2))).pmf_data := by
  have h1 : stopIndex 1 0 = 0 := by
    norm_num [stopIndex, resetLoop, binomCdfQ, binomPmfQ, TOL, Finset.sum_range_succ]
  have h2 : stopIndex 1 (1/2) = 1 := by
    norm_num [stopIndex, resetLoop, binomCdfQ, binomPmfQ, TOL, Finset.sum_range_succ]
  norm_num [mkBinomialModel, resetModel, update_pfail, h1, h2, binomPmfQ, List.range_succ]

/-- C4 (amended): `weibull_model.update_m`, `oc_curve.update_sample_size` and
`oc_curve.update_acceptance_number` each trigger a full recomputation, so the
data they leave behind equals a fresh recomputation from the current
parameters; the binomial model's `update_pfail` and `update_n`, by contrast,
only store the new parameter and leave every data sequence untouched (the
recomputation happens separately, in `binomial_plot.update_data`). -/
theorem parameter_updates_recompute_or_store :
    (∀ (s : WModel) (m' : ℝ), update_m s m' = resetModelW (update_m s m'))
      ∧ (∀ (s : OCModel) (ss : ℕ),
          update_sample_size s ss = make_data (update_sample_size s ss) (1/5) (1/1000))
      ∧ (∀ (s : OCModel) (k : ℕ),
          update_acceptance_number s k = make_data (update_acceptance_number s k) (1/5) (1/1000))
      ∧ (∀ (s : BinModel) (p : ℚ), (update_pfail s p).pmf_data = s.pmf_data
          ∧ (update_pfail s p).cdf_data = s.cdf_data ∧ (update_pfail s p).x_data = s.x_data
          ∧ (update_pfail s p).pfail = p ∧ (update_pfail s p).n = s.n)
      ∧ (∀ (s : BinModel) (n' : ℕ), (update_n s n').pmf_data = s.pmf_data
          ∧ (update_n s n').cdf_data = s.cdf_data ∧ (update_n s n').x_data = s.x_data
          ∧ (update_n s n').n = n' ∧ (update_n s n').pfail = s.pfail) :=
  ⟨fun _ _ => rfl, fun _ _ => rfl, fun _ _ => rfl,
   fun _ _ => ⟨rfl, rfl, rfl, rfl, rfl⟩, fun _ _ => ⟨rfl, rfl, rfl, rfl, rfl⟩⟩

/-! ## C5: invalid text input leaves the model unchanged -/

/-- C5: when the text-box input fails validation — unparseable
(`none`), `pfail` outside `[0,1]`, `n > 10000` or `n < 1` — the update
handlers report an error message and return the model unchanged (parameters
and data sequences alike). -/
theorem invalid_text_input_leaves_model_unchanged (s : BinModel)
    (pval : Option ℚ) (nval : Option ℤ) :
    ((pval = none ∨ ∃ p, pval = some p ∧ (1 < p ∨ p < 0)) →
       (pfail_update s pval).1 = s ∧ ((pfail_update s pval).2).isSome = true)
      ∧ ((nval = none ∨ ∃ n, nval = some n ∧ (10000 < n ∨ n < 1)) →
       (n_update s nval).1 = s ∧ ((n_update s nval).2).isSome = true) := by
  constructor
  · rintro (rfl | ⟨p, rfl, hp | hp⟩)
    · exact ⟨rfl, rfl⟩
    · simp [pfail_update, hp]
    · have h1 : ¬ (1 < p) := by linarith
      simp [pfail_update, h1, hp]
  · rintro (rfl | ⟨n, rfl, hn | hn⟩)
    · exact ⟨rfl, rfl⟩
    · simp [n_update, hn]
    · have h1 : ¬ (10000 < n) := by omega
      simp [n_update, h1, hn]

/-- Witness for C5: `pfail = 3/2` and `n = 0` are both rejected without
mutating the model. -/
theorem invalid_text_input_leaves_model_unchanged_witness :
    (pfail_update (mkBinomialModel 1 0) (some (3/2))).1 = mkBinomialModel 1 0
      ∧ (n_update (mkBinomialModel 1 0) (some 0)).1 = mkBinomialModel 1 0 :=
  ⟨((invalid_text_input_leaves_model_unchanged (mkBinomialModel 1 0) (some (3/2)) none).1
      (Or.inr ⟨3/2, rfl, Or.inl (by norm_num)⟩)).1,
   ((invalid_text_input_leaves_model_unchanged (mkBinomialModel 1 0) none (some 0)).2
      (Or.inr ⟨0, rfl, Or.inr (by norm_num)⟩)).1⟩

end Reliability
